import Mathlib

/-!
Shallow embedding of the `schifo-mandelbrot` renderer (`src/main.rs`).

Numeric values are modelled with exact rationals (`ℚ`) in place of `f64`;
all claims settled here are structural or algebraic, not about rounding.
-/

namespace Mandelbrot

/-- The complex value type of `src/main.rs` (`struct Complex { re: f64, im: f64 }`). -/
@[ext]
structure Complex where
  re : ℚ
  im : ℚ
  deriving DecidableEq, Repr

namespace Complex

/-- The constructor `Complex::new`. -/
def new (re im : ℚ) : Complex := ⟨re, im⟩

/-- Componentwise sum, `impl Add for Complex`. -/
def add (a b : Complex) : Complex := new (a.re + b.re) (a.im + b.im)

instance : Add Complex := ⟨add⟩

/-- Complex multiplication `(a.re*b.re - a.im*b.im, a.re*b.im + a.im*b.re)`,
`impl Mul for Complex`. -/
def mul (a b : Complex) : Complex :=
  new (a.re * b.re - a.im * b.im) (a.re * b.im + a.im * b.re)

instance : Mul Complex := ⟨mul⟩

/-- Exponentiation `Complex::pow`:
`(0..exp).fold(Complex::new(1.0, 0.0), |acc, _| acc * self)`. -/
def pow (a : Complex) (exp : ℕ) : Complex :=
  (List.range exp).foldl (fun acc _ => acc * a) (new 1 0)

/-- The iteration budget `Complex::MAX_ITER = 1000`. -/
def MAX_ITER : ℕ := 1000

/-- The body of `Complex::stability`'s `for` loop, with the remaining
iteration budget as structural fuel and `i` the current loop index:
`num = num.pow(2) + self; if num.re*num.re + num.im*num.im > 2.0*2.0 { return Some(i) }`. -/
def stabilityLoop (c : Complex) : Complex → ℕ → ℕ → Option ℕ
  | _, 0, _ => none
  | z, fuel + 1, i =>
    let num := z.pow 2 + c
    if num.re * num.re + num.im * num.im > 2 * 2 then some i
    else stabilityLoop c num fuel (i + 1)

/-- The function `Complex::stability` with the iteration budget as an explicit parameter
(the spec threads `max_iter` as configuration; the code fixes it to `MAX_ITER`). -/
def stabilityP (maxIter : ℕ) (c : Complex) : Option ℕ :=
  stabilityLoop c (new 0 0) maxIter 0

/-- The function `Complex::stability`: starts from `num = (0,0)` and runs `MAX_ITER` loop steps. -/
def stability (c : Complex) : Option ℕ := stabilityP MAX_ITER c

end Complex

/-! ## Tile scheduler (`main`, lines 115–122)

The dispatch loops are
`for column in 0..=(img_width / portion_size) { ... for row in 0..=(img_height / portion_size) { ... } }`
with
`start_horizontal = column * portion_size`, `end_horizontal = img_width.min((column + 1) * portion_size)`
and likewise vertically. -/

/-- A dispatched tile: the rectangle `[sx, ex) × [sy, ey)` of the canvas
(`start_horizontal`, `end_horizontal`, `start_vertical`, `end_vertical`). -/
structure Tile where
  sx : ℕ
  ex : ℕ
  sy : ℕ
  ey : ℕ
  deriving DecidableEq, Repr

/-- The tile for grid cell `(column, row)` with tile edge `e` on a `w × h` canvas. -/
def tileAt (w h e c r : ℕ) : Tile :=
  { sx := c * e, ex := min w ((c + 1) * e)
    sy := r * e, ey := min h ((r + 1) * e) }

/-- The list of tiles the scheduler dispatches, in dispatch order: `column` in
`0..=(w / e)` (outer loop), `row` in `0..=(h / e)` (inner loop), Rust integer
(floor) division. -/
def scheduledTiles (w h e : ℕ) : List Tile :=
  (List.range (w / e + 1)).flatMap fun c =>
    (List.range (h / e + 1)).map fun r => tileAt w h e c r

/-- Pixel membership in a tile's rectangle. -/
def Tile.contains (t : Tile) (p : ℕ × ℕ) : Prop :=
  t.sx ≤ p.1 ∧ p.1 < t.ex ∧ t.sy ≤ p.2 ∧ p.2 < t.ey

instance (t : Tile) (p : ℕ × ℕ) : Decidable (t.contains p) := by
  unfold Tile.contains; infer_instance

/-- A tile with at least one pixel. -/
def Tile.nonempty (t : Tile) : Prop := t.sx < t.ex ∧ t.sy < t.ey

instance (t : Tile) : Decidable t.nonempty := by
  unfold Tile.nonempty; infer_instance

/-! ## Color mapper (`hue_to_rgb`, lines 72–91) -/

/-- An RGB triple, 8-bit channels modelled as `ℕ` (the `u8` cast clamps to
`[0, 255]`). -/
abbrev Color := ℕ × ℕ × ℕ

/-- Truncation toward zero, as Rust's float-to-int and `%` semantics use. -/
def qtrunc (q : ℚ) : ℤ := if 0 ≤ q then ⌊q⌋ else ⌈q⌉

/-- Rust's `%` on floats: remainder with the sign of the dividend,
`a - b * trunc(a / b)`. -/
def rustRem (a b : ℚ) : ℚ := a - b * qtrunc (a / b)

/-- Rust's saturating `as u8` cast on a (finite, here exact) float:
truncate toward zero, clamp into `[0, 255]`. -/
def toU8 (q : ℚ) : ℕ := min 255 (Int.toNat ⌊q⌋)

/-- The function `hue_to_rgb(rad)`. The constant `third` stands for the `f64` value
`FRAC_PI_3` (π/3 is irrational so it is threaded as a parameter of the exact
embedding):
`x = 1.0 - ((rad / third) % 2.0 - 1.0).abs(); x8 = (x * 255.0) as u8;`
then the five-way sector selection on `rad`. -/
def hue_to_rgb (third rad : ℚ) : Color :=
  let x := 1 - |rustRem (rad / third) 2 - 1|
  let x8 := toU8 (x * 255)
  if rad < third then (255, x8, 0)
  else if rad < third * 2 then (x8, 255, 0)
  else if rad < third * 3 then (0, 255, x8)
  else if rad < third * 4 then (0, x8, 255)
  else (255, 0, x8)

/-- Mathematical modulus on rationals (always in `[0, b)` for `b > 0`). -/
def mathMod (a b : ℚ) : ℚ := a - b * ⌊a / b⌋

/-- Modelled from the spec (§4.2): the sector table for the hue wheel, with
ramp variable `x = 1 - |((angle / sector_width) mod 2) - 1|` scaled to 8
bits; half-open 60° sectors `[0°, 60°) ↦ (255, x, 0)`, `[60°, 120°) ↦
(x, 255, 0)`, `[120°, 180°) ↦ (0, 255, x)`, `[180°, 240°) ↦ (0, x, 255)`,
`[240°, 360°) ↦ (255, 0, x)`; `third` stands for the sector width π/3. -/
def hueTable (third rad : ℚ) : Color :=
  let x := 1 - |mathMod (rad / third) 2 - 1|
  let x8 := toU8 (x * 255)
  if rad < third then (255, x8, 0)
  else if rad < third * 2 then (x8, 255, 0)
  else if rad < third * 3 then (0, 255, x8)
  else if rad < third * 4 then (0, x8, 255)
  else (255, 0, x8)

/-! ## Spec-side escape-time iterate (§4.1) -/

/-- Modelled from the spec (§4.1): the iterate `z_0 = (0,0)`,
`z_{k+1} = z_k^2 + c`. -/
def zIter (c : Complex) : ℕ → Complex
  | 0 => Complex.new 0 0
  | k + 1 => (zIter c k).pow 2 + c

/-- The escape test `|z|^2 > escape_radius^2` with `escape_radius = 2`
(code line 31: `num.re * num.re + num.im * num.im > 2.0 * 2.0`). -/
def escapes (z : Complex) : Bool :=
  decide (z.re * z.re + z.im * z.im > 2 * 2)

/-! ## Aggregator composition (`main`, lines 161–175) -/

/-- The call `GenericImage::copy_from(&part, start_horizontal, start_vertical)` on the
canvas: fails (the `expect("copy part in image")` branch) unless the tile's
origin plus its buffer extent fits inside the `w × h` canvas; on success the
buffer (of extent `(ex - sx) × (ey - sy)`, as built by
`ImageBuffer::from_fn(end_horizontal - start_horizontal, end_vertical - start_vertical, ..)`)
overwrites the canvas rectangle at the tile origin. The canvas is modelled as
a total pixel-to-color map. -/
def copyFrom (w h : ℕ) (canvas : ℕ × ℕ → Color) (t : Tile)
    (buf : ℕ × ℕ → Color) : Option (ℕ × ℕ → Color) :=
  if t.sx + (t.ex - t.sx) ≤ w ∧ t.sy + (t.ey - t.sy) ≤ h then
    some fun p => if t.contains p then buf (p.1 - t.sx, p.2 - t.sy) else canvas p
  else none

/-- The successful-copy blit: the tile's buffer overwrites the canvas
rectangle at the tile origin, every other pixel is untouched. -/
def blit (canvas : ℕ × ℕ → Color) (tb : Tile × (ℕ × ℕ → Color)) :
    ℕ × ℕ → Color :=
  fun p => if tb.1.contains p then tb.2 (p.1 - tb.1.sx, p.2 - tb.1.sy) else canvas p

/-- The aggregator's composition of a list of received `(tile, buffer)`
results into the canvas, in arrival order. -/
def composite (base : ℕ × ℕ → Color)
    (l : List (Tile × (ℕ × ℕ → Color))) : ℕ × ℕ → Color :=
  l.foldl blit base

/-- The timeout `Duration::from_secs(5)`, the `recv_timeout` bound (line 165). -/
def RECV_TIMEOUT : ℕ := 5

/-- The timing behaviour of the receive loop
`while let Ok(..) = rx.recv_timeout(Duration::from_secs(5)) { .. }` (lines
164–175): given the arrival times (in seconds, ascending) of the dispatched
tile results, counts how many results the loop composites before a receive
times out. The loop's clock starts at `0` and each receive waits at most
`RECV_TIMEOUT` seconds past the time of the previous receipt. -/
def recvLoop (timeout : ℕ) : ℕ → List ℕ → ℕ
  | _, [] => 0
  | now, a :: rest =>
    if a ≤ now + timeout then 1 + recvLoop timeout (max now a) rest else 0

/-- How many tile results the aggregator composites for a given arrival
schedule. -/
def tilesComposited (arrivals : List ℕ) : ℕ :=
  recvLoop RECV_TIMEOUT 0 arrivals

end Mandelbrot

namespace Mandelbrot

/-! ## Theorems -/

theorem Complex.add_def (a b : Complex) :
    a + b = ⟨a.re + b.re, a.im + b.im⟩ := rfl

theorem Complex.mul_def (a b : Complex) :
    a * b = ⟨a.re * b.re - a.im * b.im, a.re * b.im + a.im * b.re⟩ := rfl

theorem lt_div_succ_mul (x e : ℕ) (he : 0 < e) : x < (x / e + 1) * e := by
  have h1 : e * (x / e) + x % e = x := Nat.div_add_mod x e
  have h2 : x % e < e := Nat.mod_lt x he
  calc x = e * (x / e) + x % e := h1.symm
    _ < e * (x / e) + e := by omega
    _ = (x / e + 1) * e := by ring

theorem contains_tileAt {w h e c r : ℕ} {p : ℕ × ℕ} :
    (tileAt w h e c r).contains p ↔
      c * e ≤ p.1 ∧ p.1 < w ∧ p.1 < (c + 1) * e ∧
      r * e ≤ p.2 ∧ p.2 < h ∧ p.2 < (r + 1) * e := by
  simp only [tileAt, Tile.contains, lt_min_iff]
  tauto

theorem contains_col {w h e c r : ℕ} {p : ℕ × ℕ}
    (hc : (tileAt w h e c r).contains p) : p.1 / e = c ∧ p.2 / e = r := by
  rw [contains_tileAt] at hc
  exact ⟨Nat.div_eq_of_lt_le hc.1 hc.2.2.1,
    Nat.div_eq_of_lt_le hc.2.2.2.1 hc.2.2.2.2.2⟩

theorem mem_scheduledTiles {w h e : ℕ} {t : Tile} :
    t ∈ scheduledTiles w h e ↔
      ∃ c ≤ w / e, ∃ r ≤ h / e, t = tileAt w h e c r := by
  simp [scheduledTiles, List.mem_flatMap, List.mem_map, List.mem_range,
    Nat.lt_succ_iff, eq_comm]

/-- The scheduler's tiles are pairwise disjoint as pixel sets. -/
theorem scheduledTiles_pairwise (w h e : ℕ) :
    (scheduledTiles w h e).Pairwise
      (fun t₁ t₂ => ∀ p : ℕ × ℕ, ¬(t₁.contains p ∧ t₂.contains p)) := by
  rw [scheduledTiles, List.pairwise_flatMap]
  constructor
  · intro c _
    rw [List.pairwise_map]
    refine (List.pairwise_lt_range _).imp ?_
    rintro r₁ r₂ hr p ⟨h₁, h₂⟩
    have e₁ := (contains_col h₁).2
    have e₂ := (contains_col h₂).2
    omega
  · refine (List.pairwise_lt_range _).imp ?_
    intro c₁ c₂ hc t₁ ht₁ t₂ ht₂ p hp
    simp only [List.mem_map] at ht₁ ht₂
    obtain ⟨r₁, -, rfl⟩ := ht₁
    obtain ⟨r₂, -, rfl⟩ := ht₂
    have e₁ := (contains_col hp.1).1
    have e₂ := (contains_col hp.2).1
    omega

/-- C4: For every canvas size and tile edge `e ≥ 1`, the tile rectangles
generated by the scheduler are pairwise disjoint as pixel sets, their union is
exactly the full canvas rectangle `[0, w) × [0, h)`, and no tile extends past
the canvas edges. -/
theorem tiles_partition_c4 (w h e : ℕ) (he : 0 < e) :
    (scheduledTiles w h e).Pairwise
        (fun t₁ t₂ => ∀ p : ℕ × ℕ, ¬(t₁.contains p ∧ t₂.contains p)) ∧
      (∀ p : ℕ × ℕ, (p.1 < w ∧ p.2 < h) ↔ ∃ t ∈ scheduledTiles w h e, t.contains p) ∧
      (∀ t ∈ scheduledTiles w h e, t.ex ≤ w ∧ t.ey ≤ h) := by
  refine ⟨scheduledTiles_pairwise w h e, ?_, ?_⟩
  · rintro ⟨x, y⟩
    constructor
    · rintro ⟨hx, hy⟩
      refine ⟨tileAt w h e (x / e) (y / e), ?_, ?_⟩
      · exact mem_scheduledTiles.2
          ⟨x / e, Nat.div_le_div_right hx.le, y / e,
            Nat.div_le_div_right hy.le, rfl⟩
      · exact contains_tileAt.2
          ⟨Nat.div_mul_le_self x e, hx, lt_div_succ_mul x e he,
            Nat.div_mul_le_self y e, hy, lt_div_succ_mul y e he⟩
    · rintro ⟨t, ht, hp⟩
      obtain ⟨c, -, r, -, rfl⟩ := mem_scheduledTiles.1 ht
      have := contains_tileAt.1 hp
      exact ⟨this.2.1, this.2.2.2.2.1⟩
  · intro t ht
    obtain ⟨c, -, r, -, rfl⟩ := mem_scheduledTiles.1 ht
    exact ⟨min_le_left _ _, min_le_left _ _⟩

/-- C8: Complex addition is commutative: for all complex numbers `a` and `b`,
`add(a, b) == add(b, a)` (equality of the `Complex` value type). -/
theorem add_comm_c8 (a b : Complex) : a + b = b + a := by
  ext <;> simp [Complex.add_def] <;> ring

/-- C9: `pow` is n-fold self-multiplication from the multiplicative
identity: `pow(a, 0) = (1, 0)` regardless of `a`, `pow(a, 1) = a`,
`pow(a, 2) = mul(a, a)` and `pow(a, 3) = mul(mul(a, a), a)`, where `*` is
the complex multiplication `(a.re*b.re - a.im*b.im, a.re*b.im + a.im*b.re)`. -/
theorem pow_spec_c9 (a : Complex) :
    a.pow 0 = Complex.new 1 0 ∧ a.pow 1 = a ∧ a.pow 2 = a * a ∧
      a.pow 3 = (a * a) * a := by
  refine ⟨rfl, ?_, ?_, ?_⟩ <;> ext <;>
    simp [Complex.pow, List.range_succ, Complex.mul_def, Complex.new]

/-- C2 counterexample: For the 4×4 canvas with tile edge 2 the scheduler
dispatches 9 tile tasks, not `ceil(4/2) * ceil(4/2) = 4` as the claim states:
the dispatch loops run `column`/`row` over the inclusive ranges `0..=(w/e)`,
so a degenerate extra column and row are dispatched when the edge divides the
dimension. -/
theorem scheduled_count_4x4_ne_four :
    (scheduledTiles 4 4 2).length = 9 ∧ (scheduledTiles 4 4 2).length ≠ 4 := by
  decide

/-- C2 amended: For every canvas width `w`, height `h` and tile edge
`e ≥ 1`, the scheduler dispatches exactly `(w / e + 1) * (h / e + 1)` tile
tasks (floor division) — this equals `ceil(w/e) * ceil(h/e)` only when `e`
divides neither `w` nor `h`; for the 4×4 canvas with tile edge 2 it dispatches
9 tiles, of which exactly 4 are nonempty, each nonempty one of size 2×2. -/
theorem scheduled_count_c2 (w h e : ℕ) (he : 0 < e) :
    (scheduledTiles w h e).length = (w / e + 1) * (h / e + 1) ∧
      (scheduledTiles 4 4 2).length = 9 ∧
      ((scheduledTiles 4 4 2).filter (fun t => decide t.nonempty)).length = 4 ∧
      (∀ t ∈ scheduledTiles 4 4 2, t.nonempty →
        t.ex - t.sx = 2 ∧ t.ey - t.sy = 2) := by
  refine ⟨?_, by decide, by decide, by decide⟩
  simp [scheduledTiles, Function.comp_def, List.map_const', List.sum_replicate,
    smul_eq_mul, Nat.mul_comm]

/-- Witness for `scheduled_count_c2` at `w = 5`, `h = 7`, `e = 3`. -/
theorem scheduled_count_c2_witness :
    (scheduledTiles 5 7 3).length = (5 / 3 + 1) * (7 / 3 + 1) ∧
      (scheduledTiles 4 4 2).length = 9 ∧
      ((scheduledTiles 4 4 2).filter (fun t => decide t.nonempty)).length = 4 ∧
      (∀ t ∈ scheduledTiles 4 4 2, t.nonempty →
        t.ex - t.sx = 2 ∧ t.ey - t.sy = 2) :=
  scheduled_count_c2 5 7 3 (by decide)

/-- Witness for `tiles_partition_c4` at `w = 4`, `h = 4`, `e = 2`. -/
theorem tiles_partition_c4_witness :
    (scheduledTiles 4 4 2).Pairwise
        (fun t₁ t₂ => ∀ p : ℕ × ℕ, ¬(t₁.contains p ∧ t₂.contains p)) ∧
      (∀ p : ℕ × ℕ, (p.1 < 4 ∧ p.2 < 4) ↔ ∃ t ∈ scheduledTiles 4 4 2, t.contains p) ∧
      (∀ t ∈ scheduledTiles 4 4 2, t.ex ≤ 4 ∧ t.ey ≤ 4) :=
  tiles_partition_c4 4 4 2 (by decide)

/-- C1 (code evaluated at the failing input): The aggregator's receive
loop uses `recv_timeout(Duration::from_secs(5))` and exits on the first
timeout, not when the received count reaches the dispatched total (`total` is
computed on line 161 but only printed): on a run with 2 dispatched tiles whose
results arrive at 0 s and 10 s, composition ends after 1 of the 2 tiles. -/
theorem recv_timeout_exits_early_c1 :
    tilesComposited [0, 10] = 1 ∧ tilesComposited [0, 10] ≠ [0, 10].length := by
  decide

/-- C10: Every tile the scheduler dispatches — degenerate zero-extent
tiles included — has its origin plus buffer extent inside the canvas, so the
checked `copy_from` into the canvas always succeeds and the
`expect("copy part in image")` failure branch is unreachable. -/
theorem copy_from_total_c10 (w h e : ℕ) (he : 0 < e) :
    ∀ t ∈ scheduledTiles w h e, ∀ canvas buf,
      (copyFrom w h canvas t buf).isSome := by
  intro t ht canvas buf
  obtain ⟨c, hc, r, hr, rfl⟩ := mem_scheduledTiles.1 ht
  have hcw : c * e ≤ w :=
    le_trans (Nat.mul_le_mul_right e hc) (Nat.div_mul_le_self w e)
  have hrh : r * e ≤ h :=
    le_trans (Nat.mul_le_mul_right e hr) (Nat.div_mul_le_self h e)
  have hx : c * e ≤ min w ((c + 1) * e) := by
    refine le_min hcw (Nat.mul_le_mul_right e (Nat.le_succ c))
  have hy : r * e ≤ min h ((r + 1) * e) := by
    refine le_min hrh (Nat.mul_le_mul_right e (Nat.le_succ r))
  have hxw : min w ((c + 1) * e) ≤ w := min_le_left _ _
  have hyh : min h ((r + 1) * e) ≤ h := min_le_left _ _
  rw [copyFrom, if_pos]
  · rfl
  · constructor <;> [skip; skip] <;> simp only [tileAt] <;> omega

theorem rustRem_eq_mathMod (a : ℚ) (h : 0 ≤ a) : rustRem a 2 = mathMod a 2 := by
  rw [rustRem, mathMod, qtrunc, if_pos (by positivity : (0 : ℚ) ≤ a / 2)]

theorem hue_to_rgb_zero (third : ℚ) (h3 : 0 < third) :
    hue_to_rgb third 0 = (255, 0, 0) := by
  simp only [hue_to_rgb]
  rw [if_pos h3]
  norm_num [rustRem, qtrunc, toU8]

theorem hue_to_rgb_pi (third : ℚ) (h3 : 0 < third) :
    hue_to_rgb third (3 * third) = (0, 255, 255) := by
  have hne : third ≠ 0 := ne_of_gt h3
  have hdiv : 3 * third / third = 3 := by field_simp
  simp only [hue_to_rgb, hdiv]
  rw [if_neg (by nlinarith), if_neg (by nlinarith), if_neg (by nlinarith),
    if_pos (by nlinarith)]
  norm_num [rustRem, qtrunc, toU8]

theorem hue_channels_le (third rad : ℚ) :
    (hue_to_rgb third rad).1 ≤ 255 ∧ (hue_to_rgb third rad).2.1 ≤ 255 ∧
      (hue_to_rgb third rad).2.2 ≤ 255 := by
  simp only [hue_to_rgb]
  split_ifs <;> simp only [toU8] <;> omega

/-- C5: On `[0, 2π)` (that is, `[0, 6·third)` with `third` the sector
width π/3), `hue_to_rgb` agrees with the spec's sector table with ramp
`x = 1 - |((angle / (π/3)) mod 2) - 1|` scaled to 8 bits — `(255, x, 0)`,
`(x, 255, 0)`, `(0, 255, x)`, `(0, x, 255)` on the first four 60° sectors and
`(255, 0, x)` on all of `[240°, 360°)`; moreover `hue_to_rgb(0) = (255,0,0)`,
`hue_to_rgb(π) = (0,255,255)` exactly in this exact-arithmetic embedding, and
no channel value exceeds 255. -/
theorem hue_to_rgb_c5 (third rad : ℚ) (h3 : 0 < third) (h0 : 0 ≤ rad)
    (h6 : rad < 6 * third) :
    hue_to_rgb third rad = hueTable third rad ∧
      (hue_to_rgb third rad).1 ≤ 255 ∧
      (hue_to_rgb third rad).2.1 ≤ 255 ∧
      (hue_to_rgb third rad).2.2 ≤ 255 ∧
      hue_to_rgb third 0 = (255, 0, 0) ∧
      hue_to_rgb third (3 * third) = (0, 255, 255) := by
  refine ⟨?_, (hue_channels_le third rad).1, (hue_channels_le third rad).2.1,
    (hue_channels_le third rad).2.2, hue_to_rgb_zero third h3,
    hue_to_rgb_pi third h3⟩
  have hq : rustRem (rad / third) 2 = mathMod (rad / third) 2 :=
    rustRem_eq_mathMod _ (div_nonneg h0 h3.le)
  simp only [hue_to_rgb, hueTable, hq]

/-- Witness for `hue_to_rgb_c5` at `third = 1`, `rad = 2` (the 120°–180°
sector). -/
theorem hue_to_rgb_c5_witness :
    hue_to_rgb 1 2 = hueTable 1 2 ∧ (hue_to_rgb 1 2).1 ≤ 255 ∧
      (hue_to_rgb 1 2).2.1 ≤ 255 ∧ (hue_to_rgb 1 2).2.2 ≤ 255 ∧
      hue_to_rgb 1 0 = (255, 0, 0) ∧ hue_to_rgb 1 (3 * 1) = (0, 255, 255) :=
  hue_to_rgb_c5 1 2 (by norm_num) (by norm_num) (by norm_num)

theorem stabilityLoop_succ (c z : Complex) (fuel i : ℕ) :
    Complex.stabilityLoop c z (fuel + 1) i =
      if (z.pow 2 + c).re * (z.pow 2 + c).re +
          (z.pow 2 + c).im * (z.pow 2 + c).im > 2 * 2
      then some i else Complex.stabilityLoop c (z.pow 2 + c) fuel (i + 1) := rfl

theorem stabilityLoop_eq_find (c : Complex) :
    ∀ fuel i : ℕ,
      Complex.stabilityLoop c (zIter c i) fuel i =
        (List.range' i fuel).find? (fun k => escapes (zIter c (k + 1))) := by
  intro fuel
  induction fuel with
  | zero => intro i; rfl
  | succ f IH =>
    intro i
    rw [List.range'_succ, stabilityLoop_succ]
    have hz : zIter c (i + 1) = (zIter c i).pow 2 + c := rfl
    by_cases hc : ((zIter c i).pow 2 + c).re * ((zIter c i).pow 2 + c).re +
        ((zIter c i).pow 2 + c).im * ((zIter c i).pow 2 + c).im > 2 * 2
    · rw [if_pos hc, List.find?_cons_of_pos]
      simp only [escapes, hz]
      exact decide_eq_true hc
    · rw [if_neg hc, List.find?_cons_of_neg, ← hz]
      · exact IH (i + 1)
      · simp only [escapes, hz]
        simpa using hc

theorem stabilityLoop_of_zero (fuel i : ℕ) :
    Complex.stabilityLoop (Complex.new 0 0) (Complex.new 0 0) fuel i = none := by
  induction fuel generalizing i with
  | zero => rfl
  | succ f IH =>
    rw [stabilityLoop_succ]
    have hz : (Complex.new 0 0).pow 2 + Complex.new 0 0 = Complex.new 0 0 := by
      ext <;> simp [Complex.pow, List.range_succ, Complex.mul_def,
        Complex.add_def, Complex.new]
    rw [hz, if_neg (by norm_num [Complex.new])]
    exact IH (i + 1)

/-- C3: `stability` iterates `z_0 = (0,0)`, `z_{k+1} = z_k^2 + c`,
testing `|z_{k+1}|^2 > 2^2` after computing each `z_{k+1}`: it returns
`some k` for the first `k < MAX_ITER` at which the test holds (the leftmost
hit of `find?` over `k = 0 .. MAX_ITER - 1`), `none` if all `MAX_ITER`
iterations complete without escaping, and any returned index `n` satisfies
`n < MAX_ITER`. -/
theorem stability_c3 (c : Complex) :
    Complex.stability c =
        (List.range Complex.MAX_ITER).find? (fun k => escapes (zIter c (k + 1))) ∧
      ∀ n, Complex.stability c = some n → n < Complex.MAX_ITER := by
  have h1 : Complex.stability c =
      (List.range' 0 Complex.MAX_ITER).find? (fun k => escapes (zIter c (k + 1))) :=
    stabilityLoop_eq_find c Complex.MAX_ITER 0
  rw [List.range_eq_range']
  refine ⟨h1, ?_⟩
  intro n hn
  rw [h1] at hn
  have hmem := List.mem_of_find?_eq_some hn
  rw [← List.range_eq_range', List.mem_range] at hmem
  exact hmem

/-- Witness for `stability_c3` at `c = 3 + 0i`: the point escapes at
iteration 0 and `0 < MAX_ITER`. -/
theorem stability_c3_witness :
    Complex.stability (Complex.new 3 0) = some 0 ∧ (0 : ℕ) < Complex.MAX_ITER := by
  have hz : (Complex.new 0 0).pow 2 + Complex.new 3 0 = Complex.new 3 0 := by
    ext <;> simp [Complex.pow, List.range_succ, Complex.mul_def,
      Complex.add_def, Complex.new]
  have h : Complex.stability (Complex.new 3 0) = some 0 := by
    show Complex.stabilityLoop _ _ (999 + 1) 0 = some 0
    rw [stabilityLoop_succ, hz, if_pos (by norm_num [Complex.new])]
  exact ⟨h, (stability_c3 (Complex.new 3 0)).2 0 h⟩

/-- C6: For every iteration budget `m ≥ 1`, `stability((0,0))` is
"bounded" (`none`), and every `c` with `|c| > 2` (stated as
`c.re² + c.im² > 2²`, equivalent for finite inputs) is "escaped at
iteration 0" (`some 0`). -/
theorem stability_c6 (m : ℕ) (c : Complex) (hm : 1 ≤ m) :
    Complex.stabilityP m (Complex.new 0 0) = none ∧
      (c.re * c.re + c.im * c.im > 2 * 2 → Complex.stabilityP m c = some 0) := by
  constructor
  · exact stabilityLoop_of_zero m 0
  · intro hc
    obtain ⟨f, rfl⟩ : ∃ f, m = f + 1 := ⟨m - 1, by omega⟩
    rw [Complex.stabilityP, stabilityLoop_succ]
    have hz : (Complex.new 0 0).pow 2 + c = c := by
      ext <;> simp [Complex.pow, List.range_succ, Complex.mul_def,
        Complex.add_def, Complex.new]
    rw [hz, if_pos hc]

/-- Witness for `stability_c6` at `m = 1`, `c = 3 + 0i`. -/
theorem stability_c6_witness :
    Complex.stabilityP 1 (Complex.new 0 0) = none ∧
      Complex.stabilityP 1 (Complex.new 3 0) = some 0 :=
  ⟨(stability_c6 1 (Complex.new 3 0) (by norm_num)).1,
    (stability_c6 1 (Complex.new 3 0) (by norm_num)).2
      (by norm_num [Complex.new])⟩

theorem blit_comm {a b : Tile × (ℕ × ℕ → Color)}
    (hab : ∀ p : ℕ × ℕ, ¬(a.1.contains p ∧ b.1.contains p))
    (canvas : ℕ × ℕ → Color) :
    blit (blit canvas a) b = blit (blit canvas b) a := by
  funext p
  by_cases ha : a.1.contains p <;> by_cases hb : b.1.contains p
  · exact absurd ⟨ha, hb⟩ (hab p)
  · simp [blit, ha, hb]
  · simp [blit, ha, hb]
  · simp [blit, ha, hb]

theorem pairwise_disjoint_symm :
    Symmetric (fun a b : Tile × (ℕ × ℕ → Color) =>
      ∀ p : ℕ × ℕ, ¬(a.1.contains p ∧ b.1.contains p)) := by
  intro a b hab p hp
  exact hab p ⟨hp.2, hp.1⟩

theorem composite_perm_of_disjoint {l₁ l₂ : List (Tile × (ℕ × ℕ → Color))}
    (hperm : l₁.Perm l₂)
    (hp : l₁.Pairwise (fun a b => ∀ p : ℕ × ℕ, ¬(a.1.contains p ∧ b.1.contains p))) :
    ∀ base, composite base l₁ = composite base l₂ := by
  induction hperm with
  | nil => intro base; rfl
  | cons x h IH =>
    intro base
    simp only [composite, List.foldl_cons] at IH ⊢
    exact IH hp.of_cons (blit base x)
  | swap x y l =>
    intro base
    have hxy : ∀ p : ℕ × ℕ, ¬(y.1.contains p ∧ x.1.contains p) :=
      (List.pairwise_cons.1 hp).1 x (List.mem_cons_self x l)
    simp only [composite, List.foldl_cons]
    rw [blit_comm hxy base]
  | trans h₁ h₂ IH₁ IH₂ =>
    intro base
    exact (IH₁ hp base).trans
      (IH₂ ((h₁.pairwise_iff fun hab => pairwise_disjoint_symm hab).1 hp) base)

/-- C7: The final canvas is independent of the order in which completed
tiles are composited: for any assignment of result buffers to the tiles the
scheduler dispatched and any permutation of that list of results, compositing
yields an identical canvas, because the dispatched tiles write to pairwise
disjoint regions. -/
theorem composite_order_independent_c7 (w h e : ℕ) (he : 0 < e)
    (bufs : Tile → ℕ × ℕ → Color) (base : ℕ × ℕ → Color)
    (l : List (Tile × (ℕ × ℕ → Color)))
    (hl : ((scheduledTiles w h e).map fun t => (t, bufs t)).Perm l) :
    composite base ((scheduledTiles w h e).map fun t => (t, bufs t)) =
      composite base l := by
  refine composite_perm_of_disjoint hl ?_ base
  rw [List.pairwise_map]
  exact scheduledTiles_pairwise w h e

/-- Witness for `composite_order_independent_c7`: the 4×4 canvas with tile
edge 2, constant black buffers, and the reversed arrival order. -/
theorem composite_order_independent_c7_witness :
    composite (fun _ => ((0, 0, 0) : Color))
        ((scheduledTiles 4 4 2).map fun t => (t, fun _ => ((0, 0, 0) : Color))) =
      composite (fun _ => ((0, 0, 0) : Color))
        ((scheduledTiles 4 4 2).map fun t =>
          (t, fun _ => ((0, 0, 0) : Color))).reverse :=
  composite_order_independent_c7 4 4 2 (by decide)
    (fun _ _ => ((0, 0, 0) : Color)) (fun _ => ((0, 0, 0) : Color))
    _ (List.reverse_perm _).symm

/-- Witness for `copy_from_total_c10` at `w = 4`, `h = 4`, `e = 2`, the first
scheduled tile and constant black canvas and buffer. -/
theorem copy_from_total_c10_witness :
    (copyFrom 4 4 (fun _ => ((0, 0, 0) : Color)) (tileAt 4 4 2 0 0)
      (fun _ => ((0, 0, 0) : Color))).isSome :=
  copy_from_total_c10 4 4 2 (by decide) (tileAt 4 4 2 0 0) (by decide)
    (fun _ => ((0, 0, 0) : Color)) (fun _ => ((0, 0, 0) : Color))

end Mandelbrot

